import Mathlib

/-!
Verification of the veriloghex reader library.

The definitions below are a shallow embedding of the Rust source in
src/src/lib.rs: machine integers are modelled as Nat with explicit
reduction modulo 2 ^ 64 where wrapping matters, strings as List Char,
and the fallible parsing functions return Except / Option.
-/

set_option autoImplicit false

namespace VerilogHex

/-- Model of u64 wrap-around: the modulus 2 ^ 64. -/
def M64 : Nat := 2 ^ 64

/-- Model of the Rust enum DataType: a value 1..8 bytes wide.
Each constructor carries the numeric value (the Rust payload widened to Nat). -/
inductive DataType where
  | U8  (value : Nat)
  | U16 (value : Nat)
  | U24 (value : Nat)
  | U32 (value : Nat)
  | U40 (value : Nat)
  | U48 (value : Nat)
  | U56 (value : Nat)
  | U64 (value : Nat)
deriving DecidableEq, Repr

/-- Model of the Rust enum Record. -/
inductive Record where
  | Data (addr : Nat) (value : DataType)
  | EndOfFile
  | Comment
  | NewAddress (addr : Nat)
deriving DecidableEq, Repr

/-- Model of the Rust enum ReaderError. -/
inductive ReaderError where
  | InvalidSyntax
  | BadNumberConversion
deriving DecidableEq, Repr

/-- Width in bytes of a DataType (1..8). -/
def dtWidth : DataType → Nat
  | .U8 _ => 1
  | .U16 _ => 2
  | .U24 _ => 3
  | .U32 _ => 4
  | .U40 _ => 5
  | .U48 _ => 6
  | .U56 _ => 7
  | .U64 _ => 8

/-- Numeric value carried by a DataType (the u64::from widening in the source). -/
def dtVal : DataType → Nat
  | .U8 v => v
  | .U16 v => v
  | .U24 v => v
  | .U32 v => v
  | .U40 v => v
  | .U48 v => v
  | .U56 v => v
  | .U64 v => v

/-- Value of one hexadecimal digit character, as in Rust char::to_digit(16):
0-9, a-f and A-F are accepted, case-insensitively. -/
def hexDigitVal (c : Char) : Option Nat :=
  if '0' ≤ c ∧ c ≤ '9' then some (c.toNat - '0'.toNat)
  else if 'a' ≤ c ∧ c ≤ 'f' then some (c.toNat - 'a'.toNat + 10)
  else if 'A' ≤ c ∧ c ≤ 'F' then some (c.toNat - 'A'.toNat + 10)
  else none

/-- One step of the checked accumulation in Rust from_str_radix: reject a
non-digit character, and reject as soon as the accumulated value would
reach the type bound (the checked_mul / checked_add overflow checks). -/
def hexAccum (bound : Nat) : Option Nat → Char → Option Nat
  | none, _ => none
  | some acc, c =>
    match hexDigitVal c with
    | none => none
    | some d => if acc * 16 + d < bound then some (acc * 16 + d) else none

/-- The sign-stripping step of Rust from_str_radix for an unsigned type:
one leading plus sign is removed, anything else is kept. -/
def stripPlus : List Char → List Char
  | '+' :: rest => rest
  | s => s

/-- Model of Rust uN::from_str_radix(s, 16) where the type uN has `bound`
values: an optional leading plus sign, then a non-empty run of hex digits,
with overflow checking against `bound`.  A leading minus sign fails for
unsigned types because the minus character is not a valid digit. -/
def fromStrRadix16 (s : List Char) (bound : Nat) : Option Nat :=
  let digits := stripPlus s
  if digits.isEmpty then none
  else digits.foldl (hexAccum bound) (some 0)

/-- Model of Record::from_string: classify one whitespace-free token. -/
def Record.from_string (s : List Char) (current_addr : Nat) : Except ReaderError Record :=
  if s.isEmpty then .error .InvalidSyntax
  else if s.take 2 = ['/', '/'] then .ok .Comment
  else
    match s with
    | '@' :: stripped =>
      match fromStrRadix16 stripped M64 with
      | some value => .ok (.NewAddress value)
      | none => .error .BadNumberConversion
    | s =>
      match fromStrRadix16 s 256 with
      | some value => .ok (.Data current_addr (.U8 value))
      | none => .error .BadNumberConversion

/-- Model of the Rust function group_new_data: append one more byte as the
next more-significant byte, widening by one step; a no-op at 8 bytes. -/
def group_new_data (value : DataType) (next_value_u8 : Nat) : DataType :=
  match value with
  | .U8 v => .U16 (v ||| (next_value_u8 <<< 8))
  | .U16 v => .U24 (v ||| (next_value_u8 <<< 16))
  | .U24 v => .U32 (v ||| (next_value_u8 <<< 24))
  | .U32 v => .U40 (v ||| (next_value_u8 <<< 32))
  | .U40 v => .U48 (v ||| (next_value_u8 <<< 40))
  | .U48 v => .U56 (v ||| (next_value_u8 <<< 48))
  | .U56 v => .U64 (v ||| (next_value_u8 <<< 56))
  | .U64 v => .U64 v

/-- Model of the Rust struct ReaderOptions. -/
structure ReaderOptions where
  group : Bool := false
deriving DecidableEq, Repr

/-- Is one character ASCII whitespace, as in Rust u8::is_ascii_whitespace. -/
def isAsciiWhitespace (c : Char) : Bool :=
  c = ' ' || c = '\t' || c = '\n' || c = Char.ofNat 12 || c = '\r'

/-- Helper for splitAsciiWhitespace: `acc` is the reversed current token. -/
def splitAWAux : List Char → List Char → List (List Char)
  | [], acc => if acc.isEmpty then [] else [acc.reverse]
  | c :: cs, acc =>
    if isAsciiWhitespace c then
      if acc.isEmpty then splitAWAux cs [] else acc.reverse :: splitAWAux cs []
    else splitAWAux cs (c :: acc)

/-- Model of Rust str::split_ascii_whitespace: the non-empty maximal runs
of non-whitespace characters, in order. -/
def splitAsciiWhitespace (s : List Char) : List (List Char) :=
  splitAWAux s []

/-- Model of the Rust struct Reader: the peekable token iterator becomes the
list of not-yet-consumed tokens. -/
structure Reader where
  tokens : List (List Char)
  finished : Bool
  options : ReaderOptions
  current_addr : Nat
deriving DecidableEq, Repr

/-- Model of Reader::new_with_options. -/
def Reader.new_with_options (s : List Char) (options : ReaderOptions) : Reader :=
  { tokens := splitAsciiWhitespace s
    finished := false
    options := options
    current_addr := 0 }

/-- Model of Reader::new. -/
def Reader.new (s : List Char) : Reader :=
  Reader.new_with_options s {}

/-- Model of Reader::next_record: find the next non-empty token, consuming
tokens up to and including it. -/
def next_record : List (List Char) → Option (List Char × List (List Char))
  | [] => none
  | t :: rest => if t.isEmpty then next_record rest else some (t, rest)

/-- Is the DataType at the full 8-byte width (the matches! U64 test). -/
def DataType.isU64 : DataType → Bool
  | .U64 _ => true
  | _ => false

/-- Model of the grouping while-loop in Reader::next: starting from an
accumulated value, the already-advanced current address and the remaining
tokens, repeatedly peek the next token, trial-parse it, and merge it when
the trial gives a 1-byte Data record, stopping at 8 bytes, at end of input
or at any other trial result.  Returns the final value, address and the
tokens still unconsumed. -/
def groupLoop (value : DataType) (cur : Nat) (toks : List (List Char)) :
    DataType × Nat × List (List Char) :=
  if value.isU64 then (value, cur, toks)
  else
    match toks with
    | [] => (value, cur, [])
    | t :: rest =>
      match Record.from_string t cur with
      | .ok (.Data _ (.U8 b)) =>
        groupLoop (group_new_data value b) ((cur + 1) % M64) rest
      | _ => (value, cur, t :: rest)

/-- Model of one call of Iterator::next for Reader: returns the produced
item (none is the terminal signal) together with the updated reader. -/
def Reader.next (r : Reader) : Option (Except ReaderError Record) × Reader :=
  if r.finished then (none, r)
  else
    match next_record r.tokens with
    | none => (none, { r with tokens := [], finished := true })
    | some (token, rest) =>
      let pr := Record.from_string token r.current_addr
      let fin : Bool :=
        match pr with
        | .error _ => true
        | .ok .EndOfFile => true
        | _ => false
      let cur : Nat :=
        match pr with
        | .ok (.NewAddress a) => a
        | .ok (.Data _ _) => (r.current_addr + 1) % M64
        | _ => r.current_addr
      match pr, r.options.group && !fin with
      | .ok (.Data a v), true =>
        let res := groupLoop v cur rest
        (some (.ok (.Data a res.1)),
          { r with tokens := res.2.2, finished := fin, current_addr := res.2.1 })
      | _, _ =>
        (some pr, { r with tokens := rest, finished := fin, current_addr := cur })

/-- Apply Reader.next `n` times, keeping only the final state. -/
def Reader.steps : Reader → Nat → Reader
  | r, 0 => r
  | r, n + 1 => (r.next).2.steps n

/-- The items produced by the first `n` calls of Reader.next. -/
def Reader.items : Reader → Nat → List (Option (Except ReaderError Record))
  | _, 0 => []
  | r, n + 1 => (r.next).1 :: (r.next).2.items n

/-- Uppercase hexadecimal digit character for a value below 16. -/
def hexDigitChar (n : Nat) : Char :=
  if n < 10 then Char.ofNat ('0'.toNat + n) else Char.ofNat ('A'.toNat + (n - 10))

/-- The uppercase hex digits of `n`, least significant digit first. -/
def hexDigitsRev (n : Nat) : List Char :=
  if n < 16 then [hexDigitChar n]
  else hexDigitChar (n % 16) :: hexDigitsRev (n / 16)
termination_by n
decreasing_by exact Nat.div_lt_self (by omega) (by norm_num)

/-- The uppercase hex digits of `n`, most significant digit first; n = 0
renders as one zero digit. -/
def toHexUpper (n : Nat) : List Char :=
  (hexDigitsRev n).reverse

/-- Model of the Rust formatter directive with uppercase hex, zero fill and
total field `width`: when `alternate` is set the 0x marker is emitted first
and counted in the width, and fill zeros go after it. -/
def rustFormatHex (n : Nat) (width : Nat) (alternate : Bool) : List Char :=
  let digits := toHexUpper n
  let pfx : List Char := if alternate then ['0', 'x'] else []
  pfx ++ List.replicate (width - (pfx.length + digits.length)) '0' ++ digits

/-- Model of impl fmt::Display for Record: EOF and comment markers, the
address rendered as in the directive with hash, zero, width ten and X, and
the Data value widened to u64 and rendered with width two. -/
def Record.display : Record → List Char
  | .EndOfFile => ("EOF").data
  | .Comment => ("comment").data
  | .NewAddress addr => ("new address: ").data ++ rustFormatHex addr 10 true
  | .Data addr value =>
    rustFormatHex addr 10 true ++ (": ").data ++ rustFormatHex (dtVal value) 2 false

/-! ### Spec-side definitions

The following definitions restate parts of the specification in its own
words; the theorems compare them with the code-side definitions above. -/

/-- The byte value a token stands for, when its trial parse is a 1-byte
Data record, independent of the current address. -/
def tokenByte (t : List Char) : Option Nat :=
  match Record.from_string t 0 with
  | .ok (.Data _ (.U8 b)) => some b
  | _ => none

/-- Spec reading of parsing a base-16 unsigned integer bounded by `bound`:
after optional sign stripping the token must be a non-empty run of hex
digits, the value is the usual positional base-16 number of the digits,
and it must fit below the bound. -/
def specParseNat (s : List Char) (bound : Nat) : Option Nat :=
  let ds := stripPlus s
  if ds ≠ [] ∧ ∀ c ∈ ds, (hexDigitVal c).isSome then
    let v := Nat.ofDigits 16 ((ds.map fun c => (hexDigitVal c).getD 0).reverse)
    if v < bound then some v else none
  else none

/-- Spec reading of the token classification rules of section 4.2, in the
spec order: empty token, comment marker, address directive, bare byte. -/
def specFromString (s : List Char) (a : Nat) : Except ReaderError Record :=
  if s = [] then .error .InvalidSyntax
  else if ['/', '/'] <+: s then .ok .Comment
  else if s.head? = some '@' then
    match specParseNat s.tail M64 with
    | some v => .ok (.NewAddress v)
    | none => .error .BadNumberConversion
  else
    match specParseNat s 256 with
    | some v => .ok (.Data a (.U8 v))
    | none => .error .BadNumberConversion

/-- Zero-padding of a digit list to a minimum width, as the spec words the
display format. -/
def padZeros (w : Nat) (ds : List Char) : List Char :=
  List.replicate (w - ds.length) '0' ++ ds

/-- Spec reading of the display format of section 4.5: addresses in
uppercase hex, zero-padded to a minimum of 8 digits behind the radix
marker; Data values widened to 64 bits and zero-padded to a minimum of 2
digits, depending only on the numeric value. -/
def specDisplay : Record → List Char
  | .EndOfFile => ("EOF").data
  | .Comment => ("comment").data
  | .NewAddress a => ("new address: 0x").data ++ padZeros 8 (toHexUpper a)
  | .Data a v =>
    ("0x").data ++ padZeros 8 (toHexUpper a) ++ (": ").data ++
      padZeros 2 (toHexUpper (dtVal v))

/-- The little-endian packing of a byte list starting at byte position i:
byte k of the list is shifted left by 8 * (i + k) bits and everything is
or-ed together, exactly as the spec writes the packed value. -/
def packLEFrom (i : Nat) : List Nat → Nat
  | [] => 0
  | b :: bs => (b <<< (8 * i)) ||| packLEFrom (i + 1) bs

/-- The DataType that a group of 1..8 bytes packs to: the width is the
group length and the value is the little-endian packing. -/
def dtOfBytes (bs : List Nat) : DataType :=
  match bs.length with
  | 1 => .U8 (packLEFrom 0 bs)
  | 2 => .U16 (packLEFrom 0 bs)
  | 3 => .U24 (packLEFrom 0 bs)
  | 4 => .U32 (packLEFrom 0 bs)
  | 5 => .U40 (packLEFrom 0 bs)
  | 6 => .U48 (packLEFrom 0 bs)
  | 7 => .U56 (packLEFrom 0 bs)
  | _ => .U64 (packLEFrom 0 bs)

/-- The grouped records the spec expects for a run of bytes starting at
address A: consecutive groups of at most 8 bytes, group k placed at A plus
the sum of the widths of the prior groups. -/
def expectedGroups (A : Nat) (bs : List Nat) : List Record :=
  if h : bs = [] then []
  else
    .Data A (dtOfBytes (bs.take 8)) ::
      expectedGroups (A + min 8 bs.length) (bs.drop 8)
termination_by bs.length
decreasing_by
  simp only [List.length_drop]
  have := List.length_pos.mpr h
  omega

/-- The number of grouped records for a run of n bytes: n / 8, rounded up. -/
def numGroups (n : Nat) : Nat := (n + 7) / 8

/-! ### Theorems -/

theorem foldl_hexAccum_none (bound : Nat) (ds : List Char) :
    ds.foldl (hexAccum bound) none = none := by
  induction ds with
  | nil => rfl
  | cons c ds ih => simpa [hexAccum] using ih

theorem ofDigits_reverse_map_le (ds : List Char) (acc : Nat) :
    acc ≤ Nat.ofDigits 16 ((ds.map fun c => (hexDigitVal c).getD 0).reverse) +
      acc * 16 ^ ds.length := by
  have h1 : 1 ≤ 16 ^ ds.length := Nat.one_le_pow _ _ (by norm_num)
  calc acc = acc * 1 := (Nat.mul_one acc).symm
    _ ≤ acc * 16 ^ ds.length := Nat.mul_le_mul_left _ h1
    _ ≤ _ := Nat.le_add_left _ _

theorem foldl_hexAccum_some (bound : Nat) (ds : List Char) (acc : Nat)
    (hacc : acc < bound) :
    ds.foldl (hexAccum bound) (some acc) =
      (if ∀ c ∈ ds, (hexDigitVal c).isSome then
        (if Nat.ofDigits 16 ((ds.map fun c => (hexDigitVal c).getD 0).reverse) +
              acc * 16 ^ ds.length < bound
         then some (Nat.ofDigits 16 ((ds.map fun c => (hexDigitVal c).getD 0).reverse) +
              acc * 16 ^ ds.length)
         else none)
       else none) := by
  induction ds generalizing acc with
  | nil => simp [Nat.ofDigits, hacc]
  | cons c ds ih =>
    have hval : Nat.ofDigits 16 (((c :: ds).map fun x => (hexDigitVal x).getD 0).reverse) +
        acc * 16 ^ (c :: ds).length =
        Nat.ofDigits 16 ((ds.map fun x => (hexDigitVal x).getD 0).reverse) +
          (acc * 16 + (hexDigitVal c).getD 0) * 16 ^ ds.length := by
      simp only [List.map_cons, List.reverse_cons, Nat.ofDigits_append,
        List.length_reverse, List.length_map, List.length_cons,
        Nat.ofDigits_singleton]
      ring
    rcases hd : hexDigitVal c with _ | d
    · simp [List.foldl_cons, hexAccum, hd, foldl_hexAccum_none]
    · by_cases hlt : acc * 16 + d < bound
      · have hstep : hexAccum bound (some acc) c = some (acc * 16 + d) := by
          simp [hexAccum, hd, hlt]
        rw [List.foldl_cons, hstep, ih _ hlt, hval, hd]
        simp only [List.forall_mem_cons, hd, Option.isSome_some, true_and,
          Option.getD_some]
      · have hstep : hexAccum bound (some acc) c = none := by
          simp [hexAccum, hd, hlt]
        rw [List.foldl_cons, hstep, foldl_hexAccum_none]
        have hge : ¬ (Nat.ofDigits 16
            (((c :: ds).map fun x => (hexDigitVal x).getD 0).reverse) +
            acc * 16 ^ (c :: ds).length < bound) := by
          rw [hval, hd]
          intro hcontra
          exact absurd hcontra (Nat.not_lt.mpr
            (le_trans (Nat.le_of_not_lt hlt) (ofDigits_reverse_map_le ds _)))
        split <;> simp [hge]

theorem cons_at_match {α : Type} (c : Char) (t : List Char) (A : List Char → α)
    (B : List Char → α) :
    (match c :: t with
      | '@' :: stripped => A stripped
      | s => B s) =
      if c = '@' then A t else B (c :: t) := by
  by_cases hc : c = '@'
  · subst hc; rfl
  · rw [if_neg hc]
    split
    · rename_i heq
      exact absurd (List.head_eq_of_cons_eq heq) hc
    · rfl

theorem fromStrRadix16_eq_spec (s : List Char) (bound : Nat) (hb : 0 < bound) :
    fromStrRadix16 s bound = specParseNat s bound := by
  unfold fromStrRadix16 specParseNat
  rcases hds : stripPlus s with _ | ⟨c, ds⟩
  · simp
  · simp only [List.isEmpty_cons, Bool.false_eq_true, if_false, ne_eq, reduceCtorEq,
      not_false_iff, true_and]
    rw [foldl_hexAccum_some bound _ 0 hb]
    simp only [Nat.zero_mul, Nat.add_zero]


/-- C2: for the input "@81000000\n09 A0 F3 22", with group=false the
reader yields exactly NewAddress 0x81000000, then four 1-byte Data records
at the four consecutive addresses with values 0x09, 0xA0, 0xF3, 0x22, then
the terminal signal; with group=true it yields NewAddress 0x81000000, then
one 4-byte Data record at 0x81000000 with value 0x22F3A009, then the
terminal signal. -/
theorem C2_concrete_scenarios :
    (Reader.new ("@81000000\n09 A0 F3 22").data).items 6 =
      [some (.ok (.NewAddress 0x81000000)),
       some (.ok (.Data 0x81000000 (.U8 0x09))),
       some (.ok (.Data 0x81000001 (.U8 0xA0))),
       some (.ok (.Data 0x81000002 (.U8 0xF3))),
       some (.ok (.Data 0x81000003 (.U8 0x22))),
       none] ∧
    (Reader.new_with_options ("@81000000\n09 A0 F3 22").data ⟨true⟩).items 3 =
      [some (.ok (.NewAddress 0x81000000)),
       some (.ok (.Data 0x81000000 (.U32 0x22F3A009))),
       none] := by
  constructor <;> rfl

/-- C9: Record.from_string accepts any token whose whole body parses as an
unsigned base-16 number in range: a leading plus sign and leading zeros are
accepted ("+F" gives a 1-byte 0x0F, "000FF" gives 0xFF, "@+10" gives
NewAddress 0x10), while the out-of-range token "100" gives
BadNumberConversion. -/
theorem C9_lenient_number_parsing :
    Record.from_string ['+', 'F'] 0 = .ok (.Data 0 (.U8 0x0F)) ∧
    Record.from_string ['0', '0', '0', 'F', 'F'] 3 = .ok (.Data 3 (.U8 0xFF)) ∧
    Record.from_string ['@', '+', '1', '0'] 0 = .ok (.NewAddress 0x10) ∧
    Record.from_string ['1', '0', '0'] 0 = .error .BadNumberConversion := by
  refine ⟨rfl, rfl, rfl, rfl⟩

/-- C10: the per-byte address increment wraps modulo 2 ^ 64: on input
"@FFFFFFFFFFFFFFFF 00 01" with grouping disabled the reader yields a Data
record at address 0xFFFFFFFFFFFFFFFF and then one at address 0, with no
error. -/
theorem C10_address_wraparound :
    (Reader.new ("@FFFFFFFFFFFFFFFF 00 01").data).items 4 =
      [some (.ok (.NewAddress 0xFFFFFFFFFFFFFFFF)),
       some (.ok (.Data 0xFFFFFFFFFFFFFFFF (.U8 0x00))),
       some (.ok (.Data 0 (.U8 0x01))),
       none] := by
  rfl

theorem from_string_addr_eq (s : List Char) (a : Nat) :
    Record.from_string s a =
      match Record.from_string s 0 with
      | .ok (.Data _ v) => .ok (.Data a v)
      | r => r := by
  rcases s with _ | ⟨c, t⟩
  · rfl
  · unfold Record.from_string
    by_cases h2 : (c :: t).take 2 = ['/', '/']
    · simp [h2]
    · simp only [List.isEmpty_cons, Bool.false_eq_true, if_false, h2]
      rw [cons_at_match, cons_at_match]
      by_cases hc : c = '@'
      · rw [if_pos hc, if_pos hc]
        rcases h : fromStrRadix16 t M64 with _ | v <;> simp [h]
      · rw [if_neg hc, if_neg hc]
        rcases h : fromStrRadix16 (c :: t) 256 with _ | v <;> simp [h]

theorem from_string_data_shape (s : List Char) (a a' : Nat) (v : DataType)
    (h : Record.from_string s a = .ok (.Data a' v)) :
    a' = a ∧ ∃ b, v = .U8 b ∧ fromStrRadix16 s 256 = some b := by
  rcases s with _ | ⟨c, t⟩
  · simp [Record.from_string] at h
  · unfold Record.from_string at h
    by_cases h2 : (c :: t).take 2 = ['/', '/']
    · simp [h2] at h
    · simp only [List.isEmpty_cons, Bool.false_eq_true, if_false, h2] at h
      rw [cons_at_match] at h
      by_cases hc : c = '@'
      · rw [if_pos hc] at h
        rcases hr : fromStrRadix16 t M64 with _ | w <;> rw [hr] at h <;> simp at h
      · rw [if_neg hc] at h
        rcases hr : fromStrRadix16 (c :: t) 256 with _ | w <;> rw [hr] at h
        · simp at h
        · simp only [Except.ok.injEq, Record.Data.injEq] at h
          exact ⟨h.1.symm, w, h.2.symm, rfl⟩

theorem from_string_classify (s : List Char) (a : Nat) :
    (∃ b, tokenByte s = some b ∧ Record.from_string s a = .ok (.Data a (.U8 b))) ∨
    (tokenByte s = none ∧ ∀ a' v, Record.from_string s a ≠ .ok (.Data a' v)) := by
  rcases hf : Record.from_string s 0 with e | (⟨x, w⟩ | _ | _ | na)
  · right
    refine ⟨by unfold tokenByte; rw [hf], ?_⟩
    intro a' v hcon
    rw [from_string_addr_eq, hf] at hcon
    simp at hcon
  · obtain ⟨hx, b, hw, -⟩ := from_string_data_shape s 0 x w hf
    subst hw
    left
    refine ⟨b, by unfold tokenByte; rw [hf], ?_⟩
    rw [from_string_addr_eq, hf]
  · right
    refine ⟨by unfold tokenByte; rw [hf], ?_⟩
    intro a' v hcon
    rw [from_string_addr_eq, hf] at hcon
    simp at hcon
  · right
    refine ⟨by unfold tokenByte; rw [hf], ?_⟩
    intro a' v hcon
    rw [from_string_addr_eq, hf] at hcon
    simp at hcon
  · right
    refine ⟨by unfold tokenByte; rw [hf], ?_⟩
    intro a' v hcon
    rw [from_string_addr_eq, hf] at hcon
    simp at hcon

theorem tokenByte_some (t : List Char) (b : Nat) (h : tokenByte t = some b) (a : Nat) :
    Record.from_string t a = .ok (.Data a (.U8 b)) := by
  rcases from_string_classify t a with ⟨b', hb', heq⟩ | ⟨hn, _⟩
  · rw [h] at hb'
    cases hb'
    exact heq
  · rw [h] at hn
    cases hn

theorem tokenByte_none (t : List Char) (h : tokenByte t = none) (a a' : Nat)
    (v : DataType) : Record.from_string t a ≠ .ok (.Data a' v) := by
  rcases from_string_classify t a with ⟨b', hb', heq⟩ | ⟨-, hno⟩
  · rw [h] at hb'
    cases hb'
  · exact hno a' v

theorem tokenByte_isEmpty (t : List Char) (b : Nat) (h : tokenByte t = some b) :
    t.isEmpty = false := by
  rcases t with _ | ⟨c, t⟩
  · simp [tokenByte, Record.from_string] at h
  · rfl

/-- C3: Record.from_string follows the first matching rule: an empty token
gives InvalidSyntax; a token beginning with "//" gives Comment; a token
beginning with the at sign gives NewAddress of the remainder parsed as a
case-insensitive base-16 unsigned 64-bit integer, else BadNumberConversion;
any other token gives a 1-byte Data record at the current address when the
whole token parses as a base-16 value below 256, else BadNumberConversion;
and no token ever yields EndOfFile. -/
theorem C3_parser_rules (s : List Char) (a : Nat) :
    Record.from_string s a = specFromString s a ∧
    Record.from_string s a ≠ .ok .EndOfFile := by
  have hM : 0 < M64 := pow_pos (by norm_num) 64
  constructor
  · rcases s with _ | ⟨c, t⟩
    · rfl
    · unfold Record.from_string specFromString
      have hpre : (['/', '/'] <+: c :: t) ↔ (c :: t).take 2 = ['/', '/'] := by
        constructor
        · rintro ⟨r, hr⟩
          rw [← hr]
          rfl
        · intro h
          exact ⟨(c :: t).drop 2, by rw [← h]; exact List.take_append_drop 2 (c :: t)⟩
      by_cases h2 : (c :: t).take 2 = ['/', '/']
      · simp [h2, hpre]
      · simp only [List.isEmpty_cons, Bool.false_eq_true, if_false, h2, hpre,
          reduceCtorEq, ite_false]
        rw [cons_at_match]
        by_cases hc : c = '@'
        · subst hc
          simp only [if_pos rfl, List.head?_cons, Option.some.injEq, List.tail_cons,
            ite_true]
          rw [fromStrRadix16_eq_spec _ _ hM]
        · rw [if_neg hc]
          simp only [List.head?_cons, Option.some.injEq, hc, if_false, ite_false]
          rw [fromStrRadix16_eq_spec _ _ (by norm_num)]
  · rcases s with _ | ⟨c, t⟩
    · simp [Record.from_string]
    · unfold Record.from_string
      by_cases h2 : (c :: t).take 2 = ['/', '/']
      · simp [h2]
      · simp only [List.isEmpty_cons, Bool.false_eq_true, if_false, h2, ite_false]
        rw [cons_at_match]
        by_cases hc : c = '@'
        · rw [if_pos hc]
          rcases hr : fromStrRadix16 t M64 with _ | w <;> simp [hr]
        · rw [if_neg hc]
          rcases hr : fromStrRadix16 (c :: t) 256 with _ | w <;> simp [hr]

/-! ### One-step characterization of Reader.next -/

theorem next_finished (r : Reader) (h : r.finished = true) : r.next = (none, r) := by
  simp [Reader.next, h]

theorem next_exhausted (r : Reader) (hf : r.finished = false)
    (hn : next_record r.tokens = none) :
    r.next = (none, { r with tokens := [], finished := true }) := by
  simp [Reader.next, hf, hn]

theorem next_error (r : Reader) (t : List Char) (rest : List (List Char))
    (e : ReaderError) (hf : r.finished = false)
    (hn : next_record r.tokens = some (t, rest))
    (hp : Record.from_string t r.current_addr = .error e) :
    r.next = (some (.error e), { r with tokens := rest, finished := true }) := by
  simp [Reader.next, hf, hn, hp]

theorem next_eof (r : Reader) (t : List Char) (rest : List (List Char))
    (hf : r.finished = false)
    (hn : next_record r.tokens = some (t, rest))
    (hp : Record.from_string t r.current_addr = .ok .EndOfFile) :
    r.next = (some (.ok .EndOfFile), { r with tokens := rest, finished := true }) := by
  simp [Reader.next, hf, hn, hp]

theorem next_comment (r : Reader) (t : List Char) (rest : List (List Char))
    (hf : r.finished = false)
    (hn : next_record r.tokens = some (t, rest))
    (hp : Record.from_string t r.current_addr = .ok .Comment) :
    r.next = (some (.ok .Comment), { r with tokens := rest, finished := false }) := by
  rcases hg : r.options.group with _ | _ <;> simp [Reader.next, hf, hn, hp, hg]

theorem next_newaddress (r : Reader) (t : List Char) (rest : List (List Char))
    (a : Nat) (hf : r.finished = false)
    (hn : next_record r.tokens = some (t, rest))
    (hp : Record.from_string t r.current_addr = .ok (.NewAddress a)) :
    r.next = (some (.ok (.NewAddress a)),
      { r with tokens := rest, finished := false, current_addr := a }) := by
  rcases hg : r.options.group with _ | _ <;> simp [Reader.next, hf, hn, hp, hg]

theorem next_data_nogroup (r : Reader) (t : List Char) (rest : List (List Char))
    (a : Nat) (v : DataType) (hf : r.finished = false)
    (hg : r.options.group = false)
    (hn : next_record r.tokens = some (t, rest))
    (hp : Record.from_string t r.current_addr = .ok (.Data a v)) :
    r.next = (some (.ok (.Data a v)),
      { r with tokens := rest, finished := false,
               current_addr := (r.current_addr + 1) % M64 }) := by
  simp [Reader.next, hf, hn, hp, hg]

theorem next_data_group (r : Reader) (t : List Char) (rest : List (List Char))
    (a : Nat) (v : DataType) (hf : r.finished = false)
    (hg : r.options.group = true)
    (hn : next_record r.tokens = some (t, rest))
    (hp : Record.from_string t r.current_addr = .ok (.Data a v)) :
    r.next = (some (.ok (.Data a (groupLoop v ((r.current_addr + 1) % M64) rest).1)),
      { r with tokens := (groupLoop v ((r.current_addr + 1) % M64) rest).2.2,
               finished := false,
               current_addr := (groupLoop v ((r.current_addr + 1) % M64) rest).2.1 }) := by
  simp [Reader.next, hf, hn, hp, hg]

theorem steps_of_finished (r : Reader) (h : r.finished = true) (n : Nat) :
    r.steps n = r := by
  induction n with
  | zero => rfl
  | succ n ih =>
    show (r.next).2.steps n = r
    rw [next_finished r h]
    exact ih

theorem finished_after_terminal (r : Reader)
    (h : r.next.1 = none ∨ ∃ e, r.next.1 = some (.error e)) :
    (r.next.2).finished = true := by
  by_cases hf : r.finished = true
  · rw [next_finished r hf]
    exact hf
  · simp only [Bool.not_eq_true] at hf
    rcases hn : next_record r.tokens with _ | ⟨t, rest⟩
    · rw [next_exhausted r hf hn]
    · rcases hp : Record.from_string t r.current_addr with e | (⟨a, v⟩ | _ | _ | na)
      · rw [next_error r t rest e hf hn hp]
      · rcases hg : r.options.group with _ | _
        · rw [next_data_nogroup r t rest a v hf hg hn hp] at h
          simp at h
        · rw [next_data_group r t rest a v hf hg hn hp] at h
          simp at h
      · rw [next_eof r t rest hf hn hp]
      · rw [next_comment r t rest hf hn hp] at h
        simp at h
      · rw [next_newaddress r t rest na hf hn hp] at h
        simp at h

/-- C5: the finished state is sticky and terminal: once a call has returned
the terminal empty signal or a parse error as its item, every subsequent
call returns the terminal empty signal. -/
theorem C5_finished_sticky (r : Reader)
    (h : r.next.1 = none ∨ ∃ e, r.next.1 = some (.error e)) (n : Nat) :
    ((r.next.2).steps n).next.1 = none := by
  have hfin := finished_after_terminal r h
  rw [steps_of_finished _ hfin, next_finished _ hfin]

/-- C5 witness: on the input "ZZ" the first call returns a parse error, and
the calls after it return the terminal signal. -/
theorem C5_finished_sticky_witness :
    ((Reader.new ("ZZ").data).next.1 = none ∨
      ∃ e, (Reader.new ("ZZ").data).next.1 = some (.error e)) ∧
    (((Reader.new ("ZZ").data).next.2).steps 3).next.1 = none := by
  refine ⟨Or.inr ⟨.BadNumberConversion, rfl⟩, ?_⟩
  exact C5_finished_sticky (Reader.new ("ZZ").data)
    (Or.inr ⟨.BadNumberConversion, rfl⟩) 3

/-- C6: when the parser returns an error for the pulled token, that call
returns the error as its item, the reader transitions to finished with no
grouping attempted and the committed address unchanged, and the following
call returns the terminal signal. -/
theorem C6_error_delivered_once (r : Reader) (t : List Char)
    (rest : List (List Char)) (e : ReaderError) (hf : r.finished = false)
    (hn : next_record r.tokens = some (t, rest))
    (hp : Record.from_string t r.current_addr = .error e) :
    r.next = (some (.error e), { r with tokens := rest, finished := true }) ∧
    (r.next.2).current_addr = r.current_addr ∧
    (r.next.2).next.1 = none := by
  have hmain := next_error r t rest e hf hn hp
  refine ⟨hmain, by rw [hmain], ?_⟩
  rw [hmain, next_finished _ rfl]

/-- C6 witness: the reader over "@81000000 ZZ 05" delivers NewAddress, then
BadNumberConversion exactly once, then only terminal signals. -/
theorem C6_error_delivered_once_witness :
    (((Reader.new ("@81000000 ZZ 05").data).next.2).finished = false ∧
      next_record ((Reader.new ("@81000000 ZZ 05").data).next.2).tokens =
        some (['Z', 'Z'], [['0', '5']]) ∧
      Record.from_string ['Z', 'Z']
          ((Reader.new ("@81000000 ZZ 05").data).next.2).current_addr =
        .error .BadNumberConversion) ∧
    ((Reader.new ("@81000000 ZZ 05").data).next.2).next =
      (some (.error .BadNumberConversion),
        { (Reader.new ("@81000000 ZZ 05").data).next.2 with
            tokens := [['0', '5']], finished := true }) ∧
    (((Reader.new ("@81000000 ZZ 05").data).next.2).next.2).current_addr =
      ((Reader.new ("@81000000 ZZ 05").data).next.2).current_addr ∧
    (((Reader.new ("@81000000 ZZ 05").data).next.2).next.2).next.1 = none :=
  ⟨⟨rfl, rfl, rfl⟩,
   C6_error_delivered_once _ ['Z', 'Z'] [['0', '5']] .BadNumberConversion rfl rfl rfl⟩

theorem groupLoop_nil (v : DataType) (cur : Nat) : groupLoop v cur [] = (v, cur, []) := by
  unfold groupLoop
  split <;> rfl

theorem groupLoop_cons (v : DataType) (cur : Nat) (t : List Char)
    (ts : List (List Char)) :
    groupLoop v cur (t :: ts) =
      (if v.isU64 then (v, cur, t :: ts)
       else
         match Record.from_string t cur with
         | .ok (.Data _ (.U8 b)) => groupLoop (group_new_data v b) ((cur + 1) % M64) ts
         | _ => (v, cur, t :: ts)) := rfl

theorem groupLoop_stop (v : DataType) (cur : Nat) (t : List Char)
    (ts : List (List Char)) (hb : tokenByte t = none) :
    groupLoop v cur (t :: ts) = (v, cur, t :: ts) := by
  rw [groupLoop_cons]
  split
  · rfl
  · split
    · rename_i x b heq
      exact absurd heq (tokenByte_none t hb cur x (.U8 b))
    · rfl

/-- C7: a peeked token whose trial parse is not a 1-byte Data record ends
the current group without being consumed and without any state change, and
that boundary token is parsed normally as the item of the next top-level
call; the trial result is never surfaced as a stream error. -/
theorem C7_group_boundary (v : DataType) (cur : Nat) (t : List Char)
    (ts : List (List Char)) (hb : tokenByte t = none) :
    groupLoop v cur (t :: ts) = (v, cur, t :: ts) ∧
    (∀ r : Reader, r.finished = false → r.tokens = t :: ts → t.isEmpty = false →
      r.next.1 = some (Record.from_string t r.current_addr)) := by
  constructor
  · exact groupLoop_stop v cur t ts hb
  · intro r hf htoks hne
    have hn : next_record r.tokens = some (t, ts) := by
      rw [htoks]
      unfold next_record
      rw [hne]
      rfl
    rcases hp : Record.from_string t r.current_addr with e | (⟨a, w⟩ | _ | _ | na)
    · rw [next_error r t ts e hf hn hp]
    · exact absurd hp (tokenByte_none t hb r.current_addr a w)
    · rw [next_eof r t ts hf hn hp]
    · rw [next_comment r t ts hf hn hp]
    · rw [next_newaddress r t ts na hf hn hp]

/-- C7 witness: a comment token ends a 1-byte group without being consumed,
and is itself the next item. -/
theorem C7_group_boundary_witness :
    tokenByte ['/', '/', 'c'] = none ∧
    (groupLoop (.U8 5) 7 [['/', '/', 'c']] = (.U8 5, 7, [['/', '/', 'c']]) ∧
      (∀ r : Reader, r.finished = false → r.tokens = [['/', '/', 'c']] →
        (['/', '/', 'c'] : List Char).isEmpty = false →
        r.next.1 = some (Record.from_string ['/', '/', 'c'] r.current_addr))) :=
  ⟨rfl, C7_group_boundary (.U8 5) 7 ['/', '/', 'c'] [] rfl⟩

theorem dtWidth_group_new_data (v : DataType) (b : Nat) (h : v.isU64 = false) :
    dtWidth (group_new_data v b) = dtWidth v + 1 := by
  cases v <;> first
    | rfl
    | (exfalso; simp [DataType.isU64] at h)

theorem groupLoop_count (v : DataType) (cur : Nat) (toks : List (List Char)) :
    ∃ c, dtWidth (groupLoop v (cur % M64) toks).1 = dtWidth v + c ∧
      (groupLoop v (cur % M64) toks).2.1 = (cur + c) % M64 ∧
      toks.length = c + (groupLoop v (cur % M64) toks).2.2.length := by
  induction toks generalizing v cur with
  | nil =>
    refine ⟨0, ?_, ?_, ?_⟩ <;> simp [groupLoop_nil]
  | cons t ts ih =>
    rw [groupLoop_cons]
    by_cases hu : v.isU64 = true
    · refine ⟨0, ?_, ?_, ?_⟩ <;> simp [hu]
    · simp only [Bool.not_eq_true] at hu
      simp only [hu, Bool.false_eq_true, if_false]
      rcases hp : Record.from_string t (cur % M64) with e | (⟨x, w⟩ | _ | _ | na)
      · exact ⟨0, rfl, by simp, by simp⟩
      · rcases w with b | b | b | b | b | b | b | b
        · rw [Nat.mod_add_mod]
          obtain ⟨c, h1, h2, h3⟩ := ih (group_new_data v b) (cur + 1)
          refine ⟨c + 1, ?_, ?_, ?_⟩
          · rw [h1, dtWidth_group_new_data v b hu]
            omega
          · rw [h2]
            congr 1
            omega
          · simp only [List.length_cons]
            omega
        all_goals exact ⟨0, rfl, by simp, by simp⟩
      · exact ⟨0, rfl, by simp, by simp⟩
      · exact ⟨0, rfl, by simp, by simp⟩
      · exact ⟨0, rfl, by simp, by simp⟩

/-- C4: per produced item, Reader.next assigns the parsed address on a
NewAddress item (which may move it anywhere), advances the address by
exactly one per consumed byte token — so by the byte width of the emitted
Data record, grouping merges included, modulo 2 ^ 64 — and leaves the
address unchanged on Comment items and on parse errors. -/
theorem C4_address_discipline (r : Reader)
    (h : ∀ t ∈ r.tokens, t.isEmpty = false) :
    (∀ a, r.next.1 = some (.ok (.NewAddress a)) → (r.next.2).current_addr = a) ∧
    (∀ ad v, r.next.1 = some (.ok (.Data ad v)) →
      (r.next.2).current_addr = (r.current_addr + dtWidth v) % M64 ∧
      r.tokens.length = dtWidth v + (r.next.2).tokens.length) ∧
    (r.next.1 = some (.ok .Comment) → (r.next.2).current_addr = r.current_addr) ∧
    (∀ e, r.next.1 = some (.error e) → (r.next.2).current_addr = r.current_addr) := by
  by_cases hf : r.finished = true
  · rw [next_finished r hf]
    exact ⟨fun a ha => by simp at ha, fun ad v hv => by simp at hv,
      fun hc => by simp at hc, fun e he => by simp at he⟩
  · simp only [Bool.not_eq_true] at hf
    rcases htk : r.tokens with _ | ⟨t0, ts⟩
    · have hn : next_record r.tokens = none := by rw [htk]; rfl
      rw [next_exhausted r hf hn]
      exact ⟨fun a ha => by simp at ha, fun ad v hv => by simp at hv,
        fun hc => by simp at hc, fun e he => by simp at he⟩
    · have hne : t0.isEmpty = false := h t0 (htk ▸ List.mem_cons_self t0 ts)
      have hn : next_record r.tokens = some (t0, ts) := by
        rw [htk]
        unfold next_record
        rw [hne]
        rfl
      rcases hp : Record.from_string t0 r.current_addr with e | (⟨x, w⟩ | _ | _ | na)
      · rw [next_error r t0 ts e hf hn hp]
        exact ⟨fun a ha => by simp at ha, fun ad v hv => by simp at hv,
          fun hc => by simp at hc, fun e' he => rfl⟩
      · obtain ⟨hx, b, hw, -⟩ := from_string_data_shape t0 r.current_addr x w hp
        subst hx
        subst hw
        rcases hg : r.options.group with _ | _
        · rw [next_data_nogroup r t0 ts r.current_addr (.U8 b) hf hg hn hp]
          refine ⟨fun a ha => by simp at ha, ?_, fun hc => by simp at hc,
            fun e' he => by simp at he⟩
          intro ad v hv
          simp only [Option.some.injEq, Except.ok.injEq, Record.Data.injEq] at hv
          obtain ⟨had, hveq⟩ := hv
          subst hveq
          refine ⟨rfl, ?_⟩
          simp only [List.length_cons, dtWidth]
          omega
        · rw [next_data_group r t0 ts r.current_addr (.U8 b) hf hg hn hp]
          obtain ⟨c, hc1, hc2, hc3⟩ := groupLoop_count (.U8 b) (r.current_addr + 1) ts
          refine ⟨fun a ha => by simp at ha, ?_, fun hc => by simp at hc,
            fun e' he => by simp at he⟩
          intro ad v hv
          simp only [Option.some.injEq, Except.ok.injEq, Record.Data.injEq] at hv
          obtain ⟨had, hveq⟩ := hv
          subst hveq
          constructor
          · rw [hc2, hc1]
            simp only [dtWidth]
            congr 1
            omega
          · dsimp only
            simp only [List.length_cons]
            rw [hc1]
            simp only [dtWidth]
            omega
      · rw [next_eof r t0 ts hf hn hp]
        exact ⟨fun a ha => by simp at ha, fun ad v hv => by simp at hv,
          fun hc => by simp at hc, fun e' he => by simp at he⟩
      · rw [next_comment r t0 ts hf hn hp]
        exact ⟨fun a ha => by simp at ha, fun ad v hv => by simp at hv,
          fun hc => rfl, fun e' he => by simp at he⟩
      · rw [next_newaddress r t0 ts na hf hn hp]
        refine ⟨?_, fun ad v hv => by simp at hv, fun hc => by simp at hc,
          fun e' he => by simp at he⟩
        intro a ha
        simp only [Option.some.injEq, Except.ok.injEq, Record.NewAddress.injEq] at ha
        exact ha

theorem splitAWAux_no_empty (s : List Char) :
    ∀ (acc : List Char) (t : List Char), t ∈ splitAWAux s acc → t.isEmpty = false := by
  induction s with
  | nil =>
    intro acc t ht
    unfold splitAWAux at ht
    rcases hacc : acc.isEmpty with _ | _
    · rw [hacc] at ht
      simp only [Bool.false_eq_true, if_false, List.mem_singleton] at ht
      subst ht
      rcases acc with _ | ⟨c, cs⟩
      · simp at hacc
      · simp [List.isEmpty_iff]
    · rw [hacc] at ht
      simp at ht
  | cons c cs ih =>
    intro acc t ht
    unfold splitAWAux at ht
    rcases hw : isAsciiWhitespace c with _ | _
    · rw [hw] at ht
      simp only [Bool.false_eq_true, if_false] at ht
      exact ih (c :: acc) t ht
    · rw [hw] at ht
      simp only [if_true] at ht
      rcases hacc : acc.isEmpty with _ | _
      · rw [hacc] at ht
        simp only [Bool.false_eq_true, if_false, List.mem_cons] at ht
        rcases ht with ht | ht
        · subst ht
          rcases acc with _ | ⟨x, xs⟩
          · simp at hacc
          · simp [List.isEmpty_iff]
        · exact ih [] t ht
      · rw [hacc] at ht
        simp only [if_true] at ht
        exact ih [] t ht

/-- The tokenizer never yields an empty token, so the hypothesis of the C4
theorem holds for every freshly constructed reader. -/
theorem new_reader_no_empty_tokens (s : List Char) (o : ReaderOptions) :
    ∀ t ∈ (Reader.new_with_options s o).tokens, t.isEmpty = false := by
  intro t ht
  exact splitAWAux_no_empty s [] t ht

/-- C4 witness: a grouped two-byte read advances the address by 2 and
consumes 2 tokens, on a concrete reader. -/
theorem C4_address_discipline_witness :
    (∀ t ∈ (Reader.new_with_options ("01 02 //x").data ⟨true⟩).tokens,
      t.isEmpty = false) ∧
    ((∀ a, (Reader.new_with_options ("01 02 //x").data ⟨true⟩).next.1 =
        some (.ok (.NewAddress a)) →
        ((Reader.new_with_options ("01 02 //x").data ⟨true⟩).next.2).current_addr = a) ∧
     (∀ ad v, (Reader.new_with_options ("01 02 //x").data ⟨true⟩).next.1 =
        some (.ok (.Data ad v)) →
        ((Reader.new_with_options ("01 02 //x").data ⟨true⟩).next.2).current_addr =
          ((Reader.new_with_options ("01 02 //x").data ⟨true⟩).current_addr +
            dtWidth v) % M64 ∧
        (Reader.new_with_options ("01 02 //x").data ⟨true⟩).tokens.length =
          dtWidth v +
          ((Reader.new_with_options ("01 02 //x").data ⟨true⟩).next.2).tokens.length) ∧
     ((Reader.new_with_options ("01 02 //x").data ⟨true⟩).next.1 =
        some (.ok .Comment) →
        ((Reader.new_with_options ("01 02 //x").data ⟨true⟩).next.2).current_addr =
          (Reader.new_with_options ("01 02 //x").data ⟨true⟩).current_addr) ∧
     (∀ e, (Reader.new_with_options ("01 02 //x").data ⟨true⟩).next.1 =
        some (.error e) →
        ((Reader.new_with_options ("01 02 //x").data ⟨true⟩).next.2).current_addr =
          (Reader.new_with_options ("01 02 //x").data ⟨true⟩).current_addr)) :=
  ⟨by decide, C4_address_discipline (Reader.new_with_options ("01 02 //x").data ⟨true⟩)
    (by decide)⟩

theorem rustFormatHex_alt (n : Nat) :
    rustFormatHex n 10 true = '0' :: 'x' :: padZeros 8 (toHexUpper n) := by
  unfold rustFormatHex padZeros
  have h : 10 - (((['0', 'x'] : List Char).length) + (toHexUpper n).length) =
      8 - (toHexUpper n).length := by
    simp only [List.length_cons, List.length_nil]
    omega
  simp only [ite_true, h, List.cons_append, List.nil_append]

theorem rustFormatHex_plain (n : Nat) :
    rustFormatHex n 2 false = padZeros 2 (toHexUpper n) := by
  unfold rustFormatHex padZeros
  simp only [Bool.false_eq_true, if_false, List.length_nil, List.nil_append,
    Nat.zero_add]

/-- C8: the display formatter renders EndOfFile as "EOF", Comment as
"comment", a NewAddress as "new address: " then the address in uppercase
hex with the 0x marker and zero padding to at least 8 digits, and a Data
record as the address rendered identically, then ": ", then the value
widened to 64 bits in uppercase hex padded to at least 2 digits — the
digit count depending only on the numeric value and never on the byte
width; in particular the 4-byte value 5 at address 0 prints as
"0x00000000: 05". -/
theorem C8_display_format (rec : Record) :
    Record.display rec = specDisplay rec ∧
    Record.display (.Data 0 (.U32 5)) = ("0x00000000: 05").data := by
  have h0 : toHexUpper 0 = ['0'] := by
    unfold toHexUpper
    rw [hexDigitsRev]
    norm_num
    rfl
  have h5 : toHexUpper 5 = ['5'] := by
    unfold toHexUpper
    rw [hexDigitsRev]
    norm_num
    rfl
  have hconc : Record.display (.Data 0 (.U32 5)) = ("0x00000000: 05").data := by
    show rustFormatHex 0 10 true ++ (": ").data ++ rustFormatHex 5 2 false = _
    rw [rustFormatHex_alt, rustFormatHex_plain]
    unfold padZeros
    rw [h0, h5]
    rfl
  refine ⟨?_, hconc⟩
  cases rec with
  | EndOfFile => rfl
  | Comment => rfl
  | NewAddress a =>
    show ("new address: ").data ++ rustFormatHex a 10 true = _
    rw [rustFormatHex_alt]
    rfl
  | Data a v =>
    show rustFormatHex a 10 true ++ (": ").data ++ rustFormatHex (dtVal v) 2 false = _
    rw [rustFormatHex_alt, rustFormatHex_plain]
    rfl

theorem dtWidth_le (v : DataType) : dtWidth v ≤ 8 := by
  cases v <;> simp [dtWidth]

theorem isU64_false_iff (v : DataType) : v.isU64 = false ↔ dtWidth v ≤ 7 := by
  cases v <;> simp [DataType.isU64, dtWidth]

theorem dtVal_group_new_data (v : DataType) (b : Nat) (h : v.isU64 = false) :
    dtVal (group_new_data v b) = dtVal v ||| (b <<< (8 * dtWidth v)) := by
  cases v <;> simp_all [group_new_data, dtVal, dtWidth, DataType.isU64]

theorem dtEq_of_width_val (v w : DataType) (h1 : dtWidth v = dtWidth w)
    (h2 : dtVal v = dtVal w) : v = w := by
  cases v <;> cases w <;> simp_all [dtWidth, dtVal]

theorem foldl_group_spec (bs : List Nat) (v : DataType)
    (h : dtWidth v + bs.length ≤ 8) :
    dtWidth (bs.foldl group_new_data v) = dtWidth v + bs.length ∧
    dtVal (bs.foldl group_new_data v) = dtVal v ||| packLEFrom (dtWidth v) bs := by
  induction bs generalizing v with
  | nil => simp [packLEFrom]
  | cons b bs ih =>
    have hu : v.isU64 = false := by
      rw [isU64_false_iff]
      simp only [List.length_cons] at h
      omega
    have hW := dtWidth_group_new_data v b hu
    obtain ⟨ih1, ih2⟩ := ih (group_new_data v b) (by
      rw [hW]
      simp only [List.length_cons] at h
      omega)
    constructor
    · rw [List.foldl_cons, ih1, hW]
      simp only [List.length_cons]
      omega
    · rw [List.foldl_cons, ih2, hW, dtVal_group_new_data v b hu]
      show dtVal v ||| b <<< (8 * dtWidth v) ||| packLEFrom (dtWidth v + 1) bs = _
      rw [Nat.lor_assoc]
      rfl

theorem dtOfBytes_spec (bs : List Nat) (h1 : 1 ≤ bs.length) (h8 : bs.length ≤ 8) :
    dtWidth (dtOfBytes bs) = bs.length ∧ dtVal (dtOfBytes bs) = packLEFrom 0 bs := by
  have hcases : bs.length = 1 ∨ bs.length = 2 ∨ bs.length = 3 ∨ bs.length = 4 ∨
      bs.length = 5 ∨ bs.length = 6 ∨ bs.length = 7 ∨ bs.length = 8 := by omega
  unfold dtOfBytes
  rcases hcases with h | h | h | h | h | h | h | h <;> rw [h] <;> exact ⟨rfl, rfl⟩

theorem groupLoop_run (bts rest : List (List Char)) (bs : List Nat) (v : DataType)
    (cur : Nat)
    (hbs : bts.map tokenByte = bs.map some)
    (hrest : ∀ t, rest.head? = some t → tokenByte t = none)
    (hcur : cur + bs.length < M64) :
    groupLoop v cur (bts ++ rest) =
      ((bs.take (8 - dtWidth v)).foldl group_new_data v,
        cur + min (8 - dtWidth v) bs.length,
        bts.drop (8 - dtWidth v) ++ rest) := by
  induction bts generalizing bs v cur with
  | nil =>
    have hbs0 : bs = [] := by
      rcases bs with _ | ⟨b, bs⟩
      · rfl
      · simp at hbs
    subst hbs0
    simp only [List.nil_append, List.take_nil, List.foldl_nil, List.length_nil,
      Nat.min_zero, Nat.add_zero, List.drop_nil]
    rcases rest with _ | ⟨t, ts⟩
    · exact groupLoop_nil v cur
    · exact groupLoop_stop v cur t ts (hrest t rfl)
  | cons t bts ih =>
    rcases bs with _ | ⟨b, bs'⟩
    · simp at hbs
    · simp only [List.map_cons, List.cons.injEq] at hbs
      obtain ⟨hb, hbs'⟩ := hbs
      by_cases hu : v.isU64 = true
      · have hw : dtWidth v = 8 := by
          cases v <;> simp_all [DataType.isU64, dtWidth]
        rw [List.cons_append, groupLoop_cons]
        simp only [hu, if_true]
        rw [hw]
        simp
      · simp only [Bool.not_eq_true] at hu
        have hw8 : dtWidth v ≤ 7 := (isU64_false_iff v).mp hu
        rw [List.cons_append, groupLoop_cons]
        simp only [hu, Bool.false_eq_true, if_false]
        rw [tokenByte_some t b hb cur]
        have hmod : (cur + 1) % M64 = cur + 1 := Nat.mod_eq_of_lt (by
          simp only [List.length_cons] at hcur
          omega)
        show groupLoop (group_new_data v b) ((cur + 1) % M64) (bts ++ rest) = _
        rw [hmod, ih bs' (group_new_data v b) (cur + 1) hbs' (by
          simp only [List.length_cons] at hcur
          omega)]
        rw [dtWidth_group_new_data v b hu]
        rw [show 8 - dtWidth v = (8 - (dtWidth v + 1)) + 1 from by omega]
        simp only [List.take_succ_cons, List.foldl_cons, List.drop_succ_cons,
          List.length_cons, Prod.mk.injEq]
        refine ⟨trivial, ?_, trivial⟩
        omega

theorem next_one_group (r : Reader) (bts rest : List (List Char)) (bs : List Nat)
    (hf : r.finished = false) (hg : r.options.group = true)
    (htk : r.tokens = bts ++ rest)
    (hbs : bts.map tokenByte = bs.map some)
    (hne : bs ≠ [])
    (hrest : ∀ t, rest.head? = some t → tokenByte t = none)
    (hcur : r.current_addr + bs.length < M64) :
    r.next = (some (.ok (.Data r.current_addr (dtOfBytes (bs.take 8)))),
      { r with tokens := bts.drop 8 ++ rest, finished := false,
               current_addr := r.current_addr + min 8 bs.length }) := by
  rcases bs with _ | ⟨b0, bs'⟩
  · exact absurd rfl hne
  rcases bts with _ | ⟨t0, bts'⟩
  · simp at hbs
  simp only [List.map_cons, List.cons.injEq] at hbs
  obtain ⟨hb0, hbs'⟩ := hbs
  have hne0 : t0.isEmpty = false := tokenByte_isEmpty t0 b0 hb0
  have hn : next_record r.tokens = some (t0, bts' ++ rest) := by
    rw [htk, List.cons_append]
    unfold next_record
    rw [hne0]
    rfl
  have hp : Record.from_string t0 r.current_addr =
      .ok (.Data r.current_addr (.U8 b0)) := tokenByte_some t0 b0 hb0 r.current_addr
  rw [next_data_group r t0 (bts' ++ rest) r.current_addr (.U8 b0) hf hg hn hp]
  have hmod : (r.current_addr + 1) % M64 = r.current_addr + 1 := by
    apply Nat.mod_eq_of_lt
    simp only [List.length_cons] at hcur
    omega
  rw [hmod, groupLoop_run bts' rest bs' (.U8 b0) (r.current_addr + 1) hbs' hrest (by
    simp only [List.length_cons] at hcur
    omega)]
  have htake : (b0 :: bs').take 8 = b0 :: bs'.take 7 := rfl
  have hlen7 : (bs'.take 7).length = min 7 bs'.length := List.length_take 7 bs'
  have hfold := foldl_group_spec (bs'.take 7) (.U8 b0) (by
    simp only [dtWidth, hlen7]
    omega)
  have hdt := dtOfBytes_spec (b0 :: bs'.take 7) (by simp) (by
    simp only [List.length_cons, hlen7]
    omega)
  have hveq : (bs'.take 7).foldl group_new_data (.U8 b0) =
      dtOfBytes ((b0 :: bs').take 8) := by
    rw [htake]
    apply dtEq_of_width_val
    · rw [hfold.1, hdt.1]
      simp only [dtWidth, List.length_cons]
      omega
    · rw [hfold.2, hdt.2]
      show dtVal (.U8 b0) ||| packLEFrom 1 (bs'.take 7) = _
      rw [packLEFrom]
      simp [dtVal, Nat.shiftLeft_zero]
  have hsub : (8 : Nat) - dtWidth (.U8 b0) = 7 := rfl
  rw [hsub] at *
  rw [hveq]
  simp only [Prod.mk.injEq, List.length_cons]
  refine ⟨trivial, ?_⟩
  have hd : List.drop 8 (t0 :: bts') = List.drop 7 bts' := rfl
  have hmin : r.current_addr + 1 + 7 ⊓ bs'.length =
      r.current_addr + 8 ⊓ (bs'.length + 1) := by omega
  rw [hd, hmin]

theorem reader_groups_aux (n : Nat) :
    ∀ (bs : List Nat) (bts rest : List (List Char)) (r : Reader),
      r.finished = false → r.options.group = true →
      r.tokens = bts ++ rest →
      bts.map tokenByte = bs.map some →
      (∀ t, rest.head? = some t → tokenByte t = none) →
      r.current_addr + bs.length < M64 →
      bs.length = n →
      r.items (numGroups bs.length) =
        (expectedGroups r.current_addr bs).map (fun g => some (.ok g)) := by
  induction n using Nat.strong_induction_on with
  | _ n ih =>
    intro bs bts rest r hf hg htk hbs hrest hcur hlen
    rcases bs with _ | ⟨b0, bs'⟩
    · show r.items 0 = _
      rw [expectedGroups]
      rfl
    · have hnum : numGroups (b0 :: bs').length =
          numGroups ((b0 :: bs').drop 8).length + 1 := by
        simp only [numGroups, List.length_cons, List.length_drop]
        omega
      rw [hnum]
      show r.next.1 :: (r.next.2).items (numGroups ((b0 :: bs').drop 8).length) = _
      rw [next_one_group r bts rest (b0 :: bs') hf hg htk hbs (by simp) hrest hcur]
      rw [expectedGroups, dif_neg (List.cons_ne_nil b0 bs')]
      simp only [List.map_cons]
      refine congrArg₂ _ rfl ?_
      have hdrop : (bts.drop 8).map tokenByte = ((b0 :: bs').drop 8).map some := by
        rw [List.map_drop, List.map_drop, hbs]
      refine ih ((b0 :: bs').drop 8).length ?_ ((b0 :: bs').drop 8) (bts.drop 8)
        rest _ rfl hg rfl hdrop hrest ?_ rfl
      · rw [← hlen]
        simp only [List.length_drop, List.length_cons]
        omega
      · show r.current_addr + min 8 (b0 :: bs').length +
            ((b0 :: bs').drop 8).length < M64
        simp only [List.length_drop, List.length_cons] at *
        omega

/-- C1: with grouping enabled, a NewAddress directive at A followed by a
run of byte tokens (ended by end of input or a non-byte token) produces the
NewAddress item and then one Data item per consecutive group of at most 8
bytes; group k sits at A plus the widths of the prior groups and packs its
bytes little-endian, byte j shifted left by 8 j bits; and every merge step
widens the accumulated value by exactly one byte. -/
theorem C1_grouped_partition (A c0 : Nat) (atok : List Char)
    (bts rest : List (List Char)) (bs : List Nat)
    (hA : Record.from_string atok 0 = .ok (.NewAddress A))
    (hbs : bts.map tokenByte = bs.map some)
    (hrest : ∀ t, rest.head? = some t → tokenByte t = none)
    (hbound : A + bs.length < M64) :
    (Reader.mk (atok :: (bts ++ rest)) false ⟨true⟩ c0).items
        (numGroups bs.length + 1) =
      some (.ok (.NewAddress A)) ::
        (expectedGroups A bs).map (fun g => some (.ok g)) ∧
    (∀ v b, v.isU64 = false → dtWidth (group_new_data v b) = dtWidth v + 1) := by
  refine ⟨?_, fun v b h => dtWidth_group_new_data v b h⟩
  have hane : atok.isEmpty = false := by
    rcases atok with _ | ⟨c, t⟩
    · simp [Record.from_string] at hA
    · rfl
  have hp : Record.from_string atok c0 = .ok (.NewAddress A) := by
    rw [from_string_addr_eq, hA]
  have hn : next_record (Reader.mk (atok :: (bts ++ rest)) false ⟨true⟩ c0).tokens =
      some (atok, bts ++ rest) := by
    show next_record (atok :: (bts ++ rest)) = _
    unfold next_record
    rw [hane]
    rfl
  show (Reader.mk (atok :: (bts ++ rest)) false ⟨true⟩ c0).next.1 ::
      ((Reader.mk (atok :: (bts ++ rest)) false ⟨true⟩ c0).next.2).items
        (numGroups bs.length) = _
  rw [next_newaddress (Reader.mk (atok :: (bts ++ rest)) false ⟨true⟩ c0)
    atok (bts ++ rest) A rfl hn hp]
  refine congrArg₂ _ rfl ?_
  exact reader_groups_aux bs.length bs bts rest _ rfl rfl rfl hbs hrest hbound rfl

/-- C1 witness: the reader over the token stream "@10 01 02" with grouping
emits NewAddress 0x10 and then the single expected group. -/
theorem C1_grouped_partition_witness :
    (Record.from_string ['@', '1', '0'] 0 = .ok (.NewAddress 16) ∧
     ([['0', '1'], ['0', '2']] : List (List Char)).map tokenByte =
        ([1, 2] : List Nat).map some ∧
     (∀ t, ([] : List (List Char)).head? = some t → tokenByte t = none) ∧
     16 + ([1, 2] : List Nat).length < M64) ∧
    ((Reader.mk (['@', '1', '0'] :: ([['0', '1'], ['0', '2']] ++ [])) false ⟨true⟩ 0).items
        (numGroups ([1, 2] : List Nat).length + 1) =
      some (.ok (.NewAddress 16)) ::
        (expectedGroups 16 [1, 2]).map (fun g => some (.ok g)) ∧
     (∀ v b, v.isU64 = false → dtWidth (group_new_data v b) = dtWidth v + 1)) := by
  refine ⟨⟨rfl, rfl, fun t ht => by simp at ht, by norm_num [M64]⟩, ?_⟩
  exact C1_grouped_partition 16 0 ['@', '1', '0'] [['0', '1'], ['0', '2']] [] [1, 2]
    rfl rfl (fun t ht => by simp at ht) (by norm_num [M64])

end VerilogHex
